import Mathlib

/-!
Verification of the hw2_signer pipeline (src/hw2_signer/signer.go).

The program is a concurrent multi-stage pipeline over a channel of untyped
values.  We embed it shallowly:

* `V` models Go's `interface{}` values flowing through the channels: the
  program only ever puts `int`s and `string`s on them.
* The external hash functions `DataSignerCrc32` / `DataSignerMd5` are not part
  of src/; the spec treats them as black-box deterministic pure functions
  (`HashFnFast` / `HashFnSlow`), so every definition is parameterised over two
  abstract functions `fast slow : String → String`.
* Pure per-item computations are transcribed directly from the Go worker
  bodies.
* Concurrency (unordered completion of per-item workers) is modelled by a
  small-step machine `StageStep`: the stage's main loop consumes its input
  list in order, spawning one worker per item (the worker's eventual pure
  result joins the `pending` multiset); independently, any pending worker may
  emit its result to the output, in any interleaving.  A stage returns
  (`wg.Wait()`) when its input is exhausted and `pending` is empty.
* The per-worker mutex in `SingleHash` (`mu.Lock(); md5 = DataSignerMd5(data);
  mu.Unlock()`) is modelled by a separate lock-automaton `GateStep`.
* Go panics (failed type assertions, out-of-range indexing) are modelled with
  `Except String`: an `.error` result is an aborted run that produces no
  output.
-/

/-- A value on a pipeline channel (`chan interface{}`): the program only sends
Go `int`s and `string`s. -/
inductive V where
  | int : Int → V
  | str : String → V
deriving DecidableEq, Repr

/-- The type assertion `unit.(int)` performed by `SingleHash`'s loop:
succeeds exactly on integer values. -/
def decodeInt : V → Option Int
  | .int n => some n
  | .str _ => none

/-- The type assertion `unit.(string)` performed by the loops of `MultiHash`
and `CombineResults`: succeeds exactly on string values. -/
def decodeStr : V → Option String
  | .int _ => none
  | .str s => some s

/-- The per-item computation of `SingleHash`'s worker goroutine for input
integer `num`: with `data = strconv.Itoa(num)` it sends
`DataSignerCrc32(data) + "~" + DataSignerCrc32(DataSignerMd5(data))`
(`md5` is computed under the mutex, `DataSignerCrc32(md5)` in a helper
goroutine read back from `ch2`). -/
def singleHashItem (fast slow : String → String) (num : Int) : String :=
  fast (toString num) ++ "~" ++ fast (slow (toString num))

/-- The slot writes of `MultiHash`'s six inner goroutines, applied in an
arbitrary completion order `order`: goroutine `i` executes
`multiRes[i] = DataSignerCrc32(strconv.Itoa(i) + data)`.  The array starts as
Go's zero value (six empty strings). -/
def multiHashWrites (fast : String → String) (data : String)
    (order : List (Fin 6)) : Fin 6 → String :=
  order.foldl (fun arr i => Function.update arr i (fast (toString i.val ++ data)))
    (fun _ => "")

/-- The value `MultiHash`'s worker emits for input `data` after
`wgIn.Wait()`: `strings.Join(multiRes[:], "")`, the six slots concatenated in
index order `0,1,2,3,4,5`. -/
def multiHashItem (fast : String → String) (data : String) : String :=
  String.join ((List.finRange 6).map (fun i => fast (toString i.val ++ data)))

/-- The result of `MultiHash`'s worker when its six slot writes complete in
order `order`: join the final array in index order. -/
def multiHashRun (fast : String → String) (data : String)
    (order : List (Fin 6)) : String :=
  String.join ((List.finRange 6).map (multiHashWrites fast data order))

/-- Go's `sort.Strings`: sort ascending by lexicographic (byte-wise) order.
UTF-8 byte order coincides with code-point order, which is Lean's `≤` on
`String`; we model the sort with insertion sort, which produces the sorted
permutation. -/
def sortStrings (l : List String) : List String :=
  l.insertionSort (· ≤ ·)

/-- `CombineResults`' final emission: `strings.Join(sorted result, "_")`. -/
def combineResults (l : List String) : String :=
  String.intercalate "_" (sortStrings l)

/-- One iteration of `CombineResults`' receive loop, on state
`(result, emitted so far)`: the body is only
`result = append(result, data)` — it sends nothing to `out`. -/
def combineLoopStep (st : List String × List String) (data : String) :
    List String × List String :=
  (st.1 ++ [data], st.2)

/-- A complete run of `CombineResults` on the full input sequence (the loop
ends when the input channel is closed): returns the collected list and the
full emission trace, which gains exactly the one final joined string after
the loop. -/
def combineRun (inputs : List String) : List String × List String :=
  let st := inputs.foldl combineLoopStep ([], [])
  (st.1, st.2 ++ [combineResults st.1])

/-- The typed consumption of `SingleHash`'s loop: `num, ok := unit.(int);
if !ok { panic("type assertion failed") }`, item by item.  An `.error` is a
panic aborting the whole run. -/
def asInts : List V → Except String (List Int)
  | [] => .ok []
  | .int n :: rest => (asInts rest).map (n :: ·)
  | .str _ :: _ => .error "type assertion failed"

/-- The typed consumption shared by the loops of `MultiHash` and
`CombineResults`: `data, ok := unit.(string); if !ok { panic(...) }`. -/
def asStrings : List V → Except String (List String)
  | [] => .ok []
  | .str s :: rest => (asStrings rest).map (s :: ·)
  | .int _ :: _ => .error "type assertion failed"

/-- A sequential denotation of the whole run starting from `SingleHash`'s
input: the first stage type-checks and consumes its input; each good integer
contributes one `singleHashItem` string, each of those one `multiHashItem`
string, and `CombineResults` joins the sorted set.  A failed type assertion
panics, killing the process (`.error`): the run produces no final output. -/
def runFromSingle (fast slow : String → String) (inputs : List V) :
    Except String String := do
  let ints ← asInts inputs
  let mid1 := ints.map (singleHashItem fast slow)
  let mid2 := mid1.map (multiHashItem fast)
  pure (combineResults mid2)

/-!
## The per-stage concurrency machine

`SingleHash` and `MultiHash` have the same shape: the main loop ranges over
the input channel; each received value is type-asserted and handed to a fresh
worker goroutine (`wg.Add(1); go func(data) {...}`); each worker eventually
sends exactly one string on `out`; the stage returns after the loop and
`wg.Wait()`.  Workers finish in arbitrary order, so emissions interleave
arbitrarily with consumption.
-/

/-- State of one stage mid-run: the unread suffix of the input channel, the
multiset of results of spawned-but-not-yet-emitted workers, and the emission
trace on `out` so far. -/
structure StageState where
  toConsume : List V
  pending : Multiset String
  emitted : List String
deriving DecidableEq

/-- The stage's start state: nothing consumed, no workers, nothing emitted. -/
def initStage (inputs : List V) : StageState :=
  ⟨inputs, 0, []⟩

/-- One scheduler step of a stage whose loop decodes values with `decode` and
whose worker computes `f` on the decoded item:
* `consume`: the main loop receives the next channel value, the type
  assertion succeeds, and a worker for it is spawned (its eventual pure
  result `f a` joins the pending multiset);
* `emit`: some spawned worker finishes and sends its result on `out`.
A value on which `decode` fails stops the machine: the Go loop panics there
(that aborted path is modelled separately by `asInts`/`asStrings`). -/
inductive StageStep {α : Type} (decode : V → Option α) (f : α → String) :
    StageState → StageState → Prop where
  | consume (v : V) (rest : List V) (pending : Multiset String)
      (emitted : List String) (a : α) :
      decode v = some a →
      StageStep decode f ⟨v :: rest, pending, emitted⟩
        ⟨rest, f a ::ₘ pending, emitted⟩
  | emit (toConsume : List V) (pending : Multiset String)
      (emitted : List String) (s : String) :
      s ∈ pending →
      StageStep decode f ⟨toConsume, pending, emitted⟩
        ⟨toConsume, pending.erase s, emitted ++ [s]⟩

/-- Reachability of a stage state from the start state on `inputs`, under any
interleaving. -/
def StageReach {α : Type} (decode : V → Option α) (f : α → String)
    (inputs : List V) (s : StageState) : Prop :=
  Relation.ReflTransGen (StageStep decode f) (initStage inputs) s

/-- The stage has returned: input channel closed and drained (`range` ended)
and every spawned worker has emitted (`wg.Wait()` passed). -/
def StageDone (s : StageState) : Prop :=
  s.toConsume = [] ∧ s.pending = 0

/-- A complete run of a stage: some interleaving consumed the whole input and
emitted `outputs`. -/
def StageRun {α : Type} (decode : V → Option α) (f : α → String)
    (inputs : List V) (outputs : List String) : Prop :=
  ∃ s : StageState, StageReach decode f inputs s ∧ StageDone s ∧ s.emitted = outputs

/-- The set of outcomes of a whole pipeline run on integer `inputs`: some
complete `SingleHash` run produces the intermediate strings `mid1` (in
completion order), some complete `MultiHash` run on those produces `mid2`,
and `CombineResults` — a full barrier — emits the sorted join of `mid2`.
(The stages run concurrently, but `CombineResults` only emits after its
input closes, i.e. after both upstream stages returned, so composing
complete runs captures every possible final output.) -/
def PipelineOutcome (fast slow : String → String) (inputs : List Int)
    (out : String) : Prop :=
  ∃ mid1 mid2 : List String,
    StageRun decodeInt (singleHashItem fast slow) (inputs.map V.int) mid1 ∧
    StageRun decodeStr (multiHashItem fast) (mid1.map V.str) mid2 ∧
    out = combineResults mid2

/-!
## The SingleHash serialization gate

Each `SingleHash` worker runs `mu.Lock(); md5 = DataSignerMd5(data);
mu.Unlock()` (the unlock deferred inside an inner closure).  We model the
workers of one run as an automaton: each worker is before the lock, inside
the `DataSignerMd5` call holding the mutex, or past the unlock.
-/

/-- Program counter of one `SingleHash` worker with respect to the slow-hash
critical section. -/
inductive GatePc where
  | beforeLock
  | inSlow
  | afterUnlock
deriving DecidableEq

/-- State of a run with `k` concurrent `SingleHash` workers: each worker's
program counter, and the holder of the mutex `mu` (if held). -/
structure GateState (k : Nat) where
  pcs : Fin k → GatePc
  lock : Option (Fin k)

/-- The start state: every worker before its `mu.Lock()`, mutex free. -/
def initGate (k : Nat) : GateState k :=
  ⟨fun _ => .beforeLock, none⟩

/-- Interleaved execution of the critical sections: a worker may acquire the
free mutex and enter the `DataSignerMd5` call, or finish the call and release
the mutex (the deferred `mu.Unlock()`). -/
inductive GateStep {k : Nat} : GateState k → GateState k → Prop where
  | acquire (s : GateState k) (w : Fin k) :
      s.lock = none → s.pcs w = .beforeLock →
      GateStep s ⟨Function.update s.pcs w .inSlow, some w⟩
  | release (s : GateState k) (w : Fin k) :
      s.pcs w = .inSlow → s.lock = some w →
      GateStep s ⟨Function.update s.pcs w .afterUnlock, none⟩

/-- Reachability of a gate state during a run with `k` workers. -/
def GateReach (k : Nat) (s : GateState k) : Prop :=
  Relation.ReflTransGen GateStep (initGate k) s

/-!
## The pipeline executor

`ExecutePipeline(jobs ...job)` wires the stages together.  We model the
structure it builds: channels are numbered in creation order (`make(chan
interface{})`), and each `go func` spawn is recorded as a `Worker` with its
input channel (`none` models the `nil` passed to the first job), its output
channel, and its deferred `close(chOut)` / `wg.Done()`.
-/

/-- One spawned stage goroutine: the job it runs, the channel it reads
(`none` = Go `nil`), the channel it writes, and whether the spawn wrapper
defers `close` of the output channel and `wg.Done()`. -/
structure Worker (α : Type) where
  theJob : α
  input : Option Nat
  output : Nat
  closesOutput : Bool
  signalsDone : Bool
deriving DecidableEq

/-- What one call of `ExecutePipeline` builds: the spawned workers in spawn
order, how many channels it made, how many `wg.Add(1)` it performed, and
whether it ends in `wg.Wait()`. -/
structure ExecPlan (α : Type) where
  workers : List (Worker α)
  channelsMade : Nat
  waitAdds : Nat
  blocksOnWait : Bool
deriving DecidableEq

/-- The `for _, j := range jobs` loop of `ExecutePipeline`: each iteration
makes a fresh channel `outChan` (next id), does `wg.Add(1)`, spawns the
worker on `(inChan, outChan)` with deferred `close(chOut)` and `wg.Done()`,
then sets `inChan = outChan`.  Returns the spawned workers and the next
fresh channel id. -/
def executeLoop {α : Type} (inChan nextId : Nat) :
    List α → List (Worker α) × Nat
  | [] => ([], nextId)
  | j :: rest =>
    let spawned := executeLoop nextId (nextId + 1) rest
    (⟨j, some inChan, nextId, true, true⟩ :: spawned.1, spawned.2)

/-- `ExecutePipeline(jobs ...job)`: `out := make(chan interface{})` is
channel `0`; `firstJob := jobs[0]` panics on an empty variadic slice (index
out of range); the first job is spawned with input `nil` and output `0`; the
loop wires the rest; the call ends in `wg.Wait()`. -/
def executePipeline {α : Type} (jobs : List α) : Except String (ExecPlan α) :=
  match jobs with
  | [] => .error "index out of range"
  | firstJob :: rest =>
    let spawned := executeLoop 0 1 rest
    .ok ⟨⟨firstJob, none, 0, true, true⟩ :: spawned.1, spawned.2,
      1 + rest.length, true⟩

/-!
## Helper lemmas
-/

/-- Conservation law of a stage run: the results already emitted, the results
of in-flight workers, and the results still to be spawned always add up (as a
multiset) to one result per decodable input value. -/
lemma stage_invariant {α : Type} {decode : V → Option α} {f : α → String}
    {inputs : List V} {s : StageState} (h : StageReach decode f inputs s) :
    (↑s.emitted : Multiset String) + s.pending
      + ↑((s.toConsume.filterMap decode).map f)
      = ↑((inputs.filterMap decode).map f) := by
  induction h with
  | refl => simp [initStage]
  | tail hreach hstep ih =>
    cases hstep with
    | consume v rest pending emitted a hdec =>
      rw [← ih]
      simp only [List.filterMap_cons, hdec, List.map_cons]
      simp only [← Multiset.cons_coe, ← Multiset.singleton_add]
      abel
    | emit toConsume pending emitted str hs =>
      have key : (↑(emitted ++ [str]) : Multiset String) + pending.erase str
          = ↑emitted + pending := by
        rw [← Multiset.cons_erase hs, Multiset.erase_cons_head]
        simp only [← Multiset.coe_add, Multiset.coe_singleton,
          ← Multiset.singleton_add]
        abel
      dsimp only at ih ⊢
      rw [← ih, key]

/-- Anything a stage has emitted, at any reachable instant, is the per-item
result of one of the decodable input values. -/
lemma stage_emitted_mem {α : Type} {decode : V → Option α} {f : α → String}
    {inputs : List V} {s : StageState} (h : StageReach decode f inputs s)
    {o : String} (ho : o ∈ s.emitted) :
    o ∈ (inputs.filterMap decode).map f := by
  have hinv := stage_invariant h
  have : o ∈ (↑((inputs.filterMap decode).map f) : Multiset String) := by
    rw [← hinv]
    refine Multiset.mem_add.mpr (Or.inl (Multiset.mem_add.mpr (Or.inl ?_)))
    exact Multiset.mem_coe.mpr ho
  exact Multiset.mem_coe.mp this

/-- A complete run of a stage emits exactly the multiset of per-item results,
one per decodable input value, in some order. -/
lemma stage_run_perm {α : Type} {decode : V → Option α} {f : α → String}
    {inputs : List V} {outputs : List String}
    (h : StageRun decode f inputs outputs) :
    outputs.Perm ((inputs.filterMap decode).map f) := by
  obtain ⟨s, hreach, ⟨hc, hp⟩, hout⟩ := h
  have hinv := stage_invariant hreach
  rw [hc, hp, hout] at hinv
  simp only [List.filterMap_nil, List.map_nil] at hinv
  rw [← Multiset.coe_eq_coe]
  simpa using hinv

/-- Decoding an all-integer channel recovers the integers. -/
lemma filterMap_decodeInt (l : List Int) :
    (l.map V.int).filterMap decodeInt = l := by
  induction l with
  | nil => rfl
  | cons n rest ih => simp [decodeInt, ih]

/-- Decoding an all-string channel recovers the strings. -/
lemma filterMap_decodeStr (l : List String) :
    (l.map V.str).filterMap decodeStr = l := by
  induction l with
  | nil => rfl
  | cons s rest ih => simp [decodeStr, ih]

/-- Sorting identifies lists that are permutations of each other. -/
lemma sortStrings_perm_eq {l₁ l₂ : List String} (h : l₁.Perm l₂) :
    sortStrings l₁ = sortStrings l₂ := by
  have hs₁ : List.Sorted (· ≤ ·) (sortStrings l₁) :=
    List.sorted_insertionSort ((· ≤ ·) : String → String → Prop) l₁
  have hs₂ : List.Sorted (· ≤ ·) (sortStrings l₂) :=
    List.sorted_insertionSort ((· ≤ ·) : String → String → Prop) l₂
  have hp : (sortStrings l₁).Perm (sortStrings l₂) :=
    ((List.perm_insertionSort _ l₁).trans h).trans
      (List.perm_insertionSort _ l₂).symm
  exact List.eq_of_perm_of_sorted hp hs₁ hs₂

/-- `CombineResults`' emission depends only on the multiset of received
strings. -/
lemma combineResults_perm {l₁ l₂ : List String} (h : l₁.Perm l₂) :
    combineResults l₁ = combineResults l₂ := by
  unfold combineResults
  rw [sortStrings_perm_eq h]

/-- Evaluating the slot array after a sequence of slot writes: a slot that
was written holds its (unique) written value, any other keeps its initial
content. -/
lemma foldl_update_eval {β : Type} [DecidableEq β] (g : β → String) :
    ∀ (order : List β) (arr : β → String) (i : β),
      (order.foldl (fun a j => Function.update a j (g j)) arr) i
        = if i ∈ order then g i else arr i := by
  intro order
  induction order with
  | nil => simp
  | cons j rest ih =>
    intro arr i
    simp only [List.foldl_cons]
    rw [ih]
    by_cases hj : i ∈ rest
    · simp [hj]
    · by_cases hij : i = j
      · subst hij
        simp [hj]
      · simp [hj, hij, Function.update_noteq hij]

/-- Mutex safety of the gate automaton: a worker inside the `DataSignerMd5`
call holds the mutex. -/
lemma gate_invariant {k : Nat} {s : GateState k} (h : GateReach k s) :
    ∀ w : Fin k, s.pcs w = .inSlow → s.lock = some w := by
  induction h with
  | refl =>
    intro w hw
    simp [initGate] at hw
  | tail hreach hstep ih =>
    cases hstep with
    | acquire w hlock hpc =>
      intro w2 hw2
      dsimp only at hw2 ⊢
      by_cases hww : w2 = w
      · subst hww
        rfl
      · rw [Function.update_noteq hww] at hw2
        have hl := ih w2 hw2
        rw [hlock] at hl
        exact absurd hl (by simp)
    | release w hpc hlock =>
      intro w2 hw2
      dsimp only at hw2 ⊢
      by_cases hww : w2 = w
      · subst hww
        rw [Function.update_same] at hw2
        exact absurd hw2 (by simp)
      · rw [Function.update_noteq hww] at hw2
        have hl := ih w2 hw2
        rw [hlock] at hl
        exact absurd (Option.some_injective _ hl).symm hww

/-- `CombineResults`' receive loop only accumulates: it appends each received
string to `result` and emits nothing. -/
lemma combineLoop_eval :
    ∀ (l : List String) (acc ems : List String),
      l.foldl combineLoopStep (acc, ems) = (acc ++ l, ems) := by
  intro l
  induction l with
  | nil => simp
  | cons d rest ih =>
    intro acc ems
    simp only [List.foldl_cons, combineLoopStep]
    rw [ih]
    simp

/-!
## Claim theorems
-/

/-- C1: with `s = strconv.Itoa(n)`, `SingleHash` emits for every consumed
integer `n` exactly the string
`DataSignerCrc32(s) + "~" + DataSignerCrc32(DataSignerMd5(s))`, i.e.
`HashFnFast(s) ++ "~" ++ HashFnFast (HashFnSlow s)`: at any reachable
instant every emitted string has that shape for some consumed `n`, and a
complete run emits exactly one such string per consumed integer. -/
theorem singleHash_emits_crc_tilde_crcmd5
    (fast slow : String → String) (ints : List Int) (s : StageState)
    (hreach : StageReach decodeInt (singleHashItem fast slow)
      (ints.map V.int) s) :
    (∀ o ∈ s.emitted, ∃ n : Int, n ∈ ints ∧
      o = fast (toString n) ++ "~" ++ fast (slow (toString n))) ∧
    (StageDone s → s.emitted.Perm
      (ints.map (fun n => fast (toString n) ++ "~" ++ fast (slow (toString n))))) := by
  constructor
  · intro o ho
    have hmem := stage_emitted_mem hreach ho
    rw [filterMap_decodeInt] at hmem
    obtain ⟨n, hn, hfn⟩ := List.mem_map.mp hmem
    exact ⟨n, hn, hfn.symm⟩
  · intro hdone
    have hperm := stage_run_perm ⟨s, hreach, hdone, rfl⟩
    rwa [filterMap_decodeInt] at hperm

/-- Witness for C1: a concrete two-step run (consume `0`, then the worker
emits) of `SingleHash` with identity stand-ins for both hash functions. -/
theorem singleHash_emits_crc_tilde_crcmd5_witness :
    (∃ n : Int, n ∈ ([0] : List Int) ∧
      singleHashItem id id 0 = id (toString n) ++ "~" ++ id (id (toString n))) ∧
    ([] ++ [singleHashItem id id 0]).Perm
      (([0] : List Int).map
        (fun n => id (toString n) ++ "~" ++ id (id (toString n)))) := by
  have h1 : StageStep decodeInt (singleHashItem id id)
      (initStage (([0] : List Int).map V.int))
      ⟨[], singleHashItem id id 0 ::ₘ 0, []⟩ :=
    StageStep.consume (V.int 0) [] 0 [] 0 rfl
  have h2 : StageStep decodeInt (singleHashItem id id)
      ⟨[], singleHashItem id id 0 ::ₘ 0, []⟩
      ⟨[], (singleHashItem id id 0 ::ₘ 0).erase (singleHashItem id id 0),
        [] ++ [singleHashItem id id 0]⟩ :=
    StageStep.emit [] _ [] _ (Multiset.mem_cons_self _ _)
  have hreach : StageReach decodeInt (singleHashItem id id)
      (([0] : List Int).map V.int)
      ⟨[], (singleHashItem id id 0 ::ₘ 0).erase (singleHashItem id id 0),
        [] ++ [singleHashItem id id 0]⟩ :=
    Relation.ReflTransGen.tail (Relation.ReflTransGen.single h1) h2
  have hmain := singleHash_emits_crc_tilde_crcmd5 id id [0] _ hreach
  exact ⟨hmain.1 (singleHashItem id id 0) (by simp),
    hmain.2 ⟨rfl, by simp⟩⟩

/-- C2: whatever completion order the six inner goroutines of `MultiHash`
finish in, the value emitted for input `data` is the concatenation, in fixed
index order `0,1,2,3,4,5`, of `DataSignerCrc32(strconv.Itoa(i) + data)`. -/
theorem multiHash_fixed_index_order (fast : String → String) (data : String)
    (order : List (Fin 6)) (h : order.Perm (List.finRange 6)) :
    multiHashRun fast data order = multiHashItem fast data ∧
    multiHashItem fast data
      = fast ("0" ++ data) ++ fast ("1" ++ data) ++ fast ("2" ++ data)
        ++ fast ("3" ++ data) ++ fast ("4" ++ data) ++ fast ("5" ++ data) := by
  constructor
  · unfold multiHashRun multiHashItem
    refine congrArg String.join (List.map_congr_left ?_)
    intro i hi
    have he := foldl_update_eval (fun j : Fin 6 => fast (toString j.val ++ data))
      order (fun _ => "") i
    unfold multiHashWrites
    rw [he, if_pos (h.mem_iff.mpr (List.mem_finRange i))]
  · unfold multiHashItem
    rw [show List.finRange 6 = [0, 1, 2, 3, 4, 5] from by decide]
    simp [String.join]
    rfl

/-- Witness for C2: the six writes landing in the scrambled completion order
`[1,0,2,5,4,3]` still produce the index-ordered concatenation. -/
theorem multiHash_fixed_index_order_witness :
    (([1, 0, 2, 5, 4, 3] : List (Fin 6)).Perm (List.finRange 6)) ∧
    (multiHashRun id "x" [1, 0, 2, 5, 4, 3] = multiHashItem id "x" ∧
      multiHashItem id "x"
        = id ("0" ++ "x") ++ id ("1" ++ "x") ++ id ("2" ++ "x")
          ++ id ("3" ++ "x") ++ id ("4" ++ "x") ++ id ("5" ++ "x")) :=
  ⟨by decide, multiHash_fixed_index_order id "x" [1, 0, 2, 5, 4, 3] (by decide)⟩

/-- C3: `CombineResults` is a full barrier.  While its input is open it emits
nothing (the loop body only appends to `result`); once the input closes it
emits exactly one value, the received strings sorted ascending (byte-wise
lexicographic) and joined with `"_"`. -/
theorem combineResults_full_barrier (inputs : List String) :
    (inputs.foldl combineLoopStep ([], [])).2 = [] ∧
    combineRun inputs = (inputs, [combineResults inputs]) ∧
    (sortStrings inputs).Perm inputs ∧
    List.Sorted (· ≤ ·) (sortStrings inputs) ∧
    combineResults inputs = String.intercalate "_" (sortStrings inputs) := by
  refine ⟨?_, ?_, ?_, ?_, rfl⟩
  · rw [combineLoop_eval]
  · unfold combineRun
    rw [combineLoop_eval]
    simp
  · exact List.perm_insertionSort _ inputs
  · exact List.sorted_insertionSort ((· ≤ ·) : String → String → Prop) inputs

/-- C10: closing `CombineResults`' input with zero values still yields exactly
one emission — the empty string (the `"_"`-join of the empty collection). -/
theorem combineResults_empty_input :
    combineRun [] = ([], [""]) ∧ combineResults [] = "" := by
  constructor
  · rfl
  · rfl

/-- A complete single-item stage run: consume the one value, then its worker
emits. -/
lemma stageRun_single {α : Type} (decode : V → Option α) (f : α → String)
    (v : V) (a : α) (hdec : decode v = some a) :
    StageRun decode f [v] [f a] := by
  refine ⟨⟨[], (f a ::ₘ 0).erase (f a), [] ++ [f a]⟩, ?_, ⟨rfl, by simp⟩, by simp⟩
  exact Relation.ReflTransGen.tail
    (Relation.ReflTransGen.single (StageStep.consume v [] 0 [] a hdec))
    (StageStep.emit [] _ [] _ (Multiset.mem_cons_self _ _))

/-- A complete two-item stage run in which the second item's worker finishes
first: consume both, then emit in reverse order. -/
lemma stageRun_pair {α : Type} (decode : V → Option α) (f : α → String)
    (v₁ v₂ : V) (a₁ a₂ : α) (h₁ : decode v₁ = some a₁)
    (h₂ : decode v₂ = some a₂) :
    StageRun decode f [v₁, v₂] [f a₂, f a₁] := by
  have s1 : StageStep decode f ⟨[v₁, v₂], 0, []⟩ ⟨[v₂], f a₁ ::ₘ 0, []⟩ :=
    StageStep.consume v₁ [v₂] 0 [] a₁ h₁
  have s2 : StageStep decode f ⟨[v₂], f a₁ ::ₘ 0, []⟩
      ⟨[], f a₂ ::ₘ f a₁ ::ₘ 0, []⟩ :=
    StageStep.consume v₂ [] (f a₁ ::ₘ 0) [] a₂ h₂
  have s3 : StageStep decode f ⟨[], f a₂ ::ₘ f a₁ ::ₘ 0, []⟩
      ⟨[], (f a₂ ::ₘ f a₁ ::ₘ 0).erase (f a₂), [] ++ [f a₂]⟩ :=
    StageStep.emit [] (f a₂ ::ₘ f a₁ ::ₘ 0) [] (f a₂)
      (Multiset.mem_cons_self _ _)
  have s4 : StageStep decode f
      ⟨[], (f a₂ ::ₘ f a₁ ::ₘ 0).erase (f a₂), [] ++ [f a₂]⟩
      ⟨[], ((f a₂ ::ₘ f a₁ ::ₘ 0).erase (f a₂)).erase (f a₁),
        ([] ++ [f a₂]) ++ [f a₁]⟩ :=
    StageStep.emit [] ((f a₂ ::ₘ f a₁ ::ₘ 0).erase (f a₂)) ([] ++ [f a₂])
      (f a₁)
      (by rw [Multiset.erase_cons_head]; exact Multiset.mem_cons_self _ _)
  refine ⟨_, Relation.ReflTransGen.tail (Relation.ReflTransGen.tail
    (Relation.ReflTransGen.tail (Relation.ReflTransGen.single s1) s2) s3) s4,
    ⟨rfl, by simp⟩, by simp⟩

/-- C4: the final pipeline output is a function of the multiset of input
integers only — any two complete runs (under any worker interleavings) on
inputs that are permutations of each other produce byte-identical final
strings. -/
theorem pipeline_output_function_of_multiset
    (fast slow : String → String) (inputs₁ inputs₂ : List Int)
    (out₁ out₂ : String) (hperm : inputs₁.Perm inputs₂)
    (h₁ : PipelineOutcome fast slow inputs₁ out₁)
    (h₂ : PipelineOutcome fast slow inputs₂ out₂) :
    out₁ = out₂ := by
  obtain ⟨m₁, m₂, hm₁, hm₂, ho₁⟩ := h₁
  obtain ⟨n₁, n₂, hn₁, hn₂, ho₂⟩ := h₂
  have pm₁ : m₁.Perm (inputs₁.map (singleHashItem fast slow)) := by
    have := stage_run_perm hm₁
    rwa [filterMap_decodeInt] at this
  have pn₁ : n₁.Perm (inputs₂.map (singleHashItem fast slow)) := by
    have := stage_run_perm hn₁
    rwa [filterMap_decodeInt] at this
  have pm₂ : m₂.Perm (m₁.map (multiHashItem fast)) := by
    have := stage_run_perm hm₂
    rwa [filterMap_decodeStr] at this
  have pn₂ : n₂.Perm (n₁.map (multiHashItem fast)) := by
    have := stage_run_perm hn₂
    rwa [filterMap_decodeStr] at this
  have hmid : m₂.Perm n₂ := by
    refine (pm₂.trans (List.Perm.map _ ?_)).trans pn₂.symm
    exact (pm₁.trans (hperm.map _)).trans pn₁.symm
  rw [ho₁, ho₂]
  exact combineResults_perm hmid

/-- Witness for C4: two concrete complete runs on `[0,1]` and on `[1,0]`
(with identity hash stand-ins, and with the per-item workers finishing in
reversed order inside each stage) produce the same final string. -/
theorem pipeline_output_function_of_multiset_witness :
    ([0, 1] : List Int).Perm [1, 0] ∧
    PipelineOutcome id id [0, 1]
      (combineResults [multiHashItem id (singleHashItem id id 0),
        multiHashItem id (singleHashItem id id 1)]) ∧
    PipelineOutcome id id [1, 0]
      (combineResults [multiHashItem id (singleHashItem id id 1),
        multiHashItem id (singleHashItem id id 0)]) ∧
    combineResults [multiHashItem id (singleHashItem id id 0),
        multiHashItem id (singleHashItem id id 1)]
      = combineResults [multiHashItem id (singleHashItem id id 1),
        multiHashItem id (singleHashItem id id 0)] := by
  have hperm : ([0, 1] : List Int).Perm [1, 0] := by decide
  have run₁ : PipelineOutcome id id [0, 1]
      (combineResults [multiHashItem id (singleHashItem id id 0),
        multiHashItem id (singleHashItem id id 1)]) := by
    refine ⟨[singleHashItem id id 1, singleHashItem id id 0], _,
      stageRun_pair decodeInt (singleHashItem id id) (V.int 0) (V.int 1) 0 1
        rfl rfl,
      stageRun_pair decodeStr (multiHashItem id)
        (V.str (singleHashItem id id 1)) (V.str (singleHashItem id id 0))
        (singleHashItem id id 1) (singleHashItem id id 0) rfl rfl, rfl⟩
  have run₂ : PipelineOutcome id id [1, 0]
      (combineResults [multiHashItem id (singleHashItem id id 1),
        multiHashItem id (singleHashItem id id 0)]) := by
    refine ⟨[singleHashItem id id 0, singleHashItem id id 1], _,
      stageRun_pair decodeInt (singleHashItem id id) (V.int 1) (V.int 0) 1 0
        rfl rfl,
      stageRun_pair decodeStr (multiHashItem id)
        (V.str (singleHashItem id id 0)) (V.str (singleHashItem id id 1))
        (singleHashItem id id 0) (singleHashItem id id 1) rfl rfl, rfl⟩
  exact ⟨hperm, run₁, run₂,
    pipeline_output_function_of_multiset id id [0, 1] [1, 0] _ _ hperm run₁
      run₂⟩

/-- C5: at every reachable instant of a `SingleHash` run with `k` concurrent
workers, at most one worker is inside the `DataSignerMd5` call: any two
workers at that program point are the same worker. -/
theorem md5_never_concurrent (k : Nat) (s : GateState k) (h : GateReach k s)
    (w₁ w₂ : Fin k) (h₁ : s.pcs w₁ = .inSlow) (h₂ : s.pcs w₂ = .inSlow) :
    w₁ = w₂ := by
  have l₁ := gate_invariant h w₁ h₁
  have l₂ := gate_invariant h w₂ h₂
  exact Option.some_injective _ (l₁.symm.trans l₂)

/-- Witness for C5: with two concurrent workers, the state reached after
worker `0` acquires the mutex and enters `DataSignerMd5`. -/
theorem md5_never_concurrent_witness :
    GateReach 2 ⟨Function.update (initGate 2).pcs 0 .inSlow, some 0⟩ ∧
    (0 : Fin 2) = 0 := by
  have hstep : GateStep (initGate 2)
      ⟨Function.update (initGate 2).pcs 0 .inSlow, some 0⟩ :=
    GateStep.acquire (initGate 2) 0 rfl rfl
  have hreach : GateReach 2
      ⟨Function.update (initGate 2).pcs 0 .inSlow, some 0⟩ :=
    Relation.ReflTransGen.single hstep
  exact ⟨hreach, md5_never_concurrent 2 _ hreach 0 0 (by simp) (by simp)⟩

/-- A non-integer anywhere in `SingleHash`'s input makes its loop panic. -/
lemma asInts_error {inputs : List V} {t : String} (h : V.str t ∈ inputs) :
    asInts inputs = .error "type assertion failed" := by
  induction inputs with
  | nil => cases h
  | cons v rest ih =>
    cases v with
    | str u => rfl
    | int m =>
      have hrest : V.str t ∈ rest := by
        rcases List.mem_cons.mp h with h1 | h1
        · cases h1
        · exact h1
      rw [asInts, ih hrest]
      rfl

/-- A non-string anywhere in the input of `MultiHash` or `CombineResults`
makes that loop panic. -/
lemma asStrings_error {inputs : List V} {n : Int} (h : V.int n ∈ inputs) :
    asStrings inputs = .error "type assertion failed" := by
  induction inputs with
  | nil => cases h
  | cons v rest ih =>
    cases v with
    | int m => rfl
    | str u =>
      have hrest : V.int n ∈ rest := by
        rcases List.mem_cons.mp h with h1 | h1
        · cases h1
        · exact h1
      rw [asStrings, ih hrest]
      rfl

/-- C6: a wrongly-typed value reaching a stage makes that stage panic (the
failed type assertion) instead of skipping the item — and a panicked run is
aborted, producing no final output (`.error`, never an `.ok` string). -/
theorem wrong_type_aborts_run (fast slow : String → String)
    (inputs l : List V) (t : String) (n : Int)
    (hbad : V.str t ∈ inputs) (hbad' : V.int n ∈ l) :
    asInts inputs = .error "type assertion failed" ∧
    asStrings l = .error "type assertion failed" ∧
    runFromSingle fast slow inputs = .error "type assertion failed" := by
  refine ⟨asInts_error hbad, asStrings_error hbad', ?_⟩
  unfold runFromSingle
  rw [asInts_error hbad]
  rfl

/-- Witness for C6: a string fed to `SingleHash` and an integer fed to a
string stage each abort the run. -/
theorem wrong_type_aborts_run_witness :
    V.str "oops" ∈ [V.int 3, V.str "oops"] ∧
    V.int 9 ∈ [V.str "a", V.int 9] ∧
    (asInts [V.int 3, V.str "oops"] = .error "type assertion failed" ∧
      asStrings [V.str "a", V.int 9] = .error "type assertion failed" ∧
      runFromSingle id id [V.int 3, V.str "oops"]
        = .error "type assertion failed") :=
  ⟨by decide, by decide,
    wrong_type_aborts_run id id [V.int 3, V.str "oops"] [V.str "a", V.int 9]
      "oops" 9 (by decide) (by decide)⟩

/-- C8: on the happy path, `SingleHash` and `MultiHash` each emit exactly one
output per consumed input: a complete run's emissions are a permutation of
the per-item results, one per input — nothing dropped, nothing duplicated. -/
theorem stages_emit_one_output_per_input (fast slow : String → String)
    (intsIn : List Int) (strsIn : List String) (outS outM : List String)
    (hS : StageRun decodeInt (singleHashItem fast slow) (intsIn.map V.int)
      outS)
    (hM : StageRun decodeStr (multiHashItem fast) (strsIn.map V.str) outM) :
    (outS.Perm (intsIn.map (singleHashItem fast slow))
      ∧ outS.length = intsIn.length) ∧
    (outM.Perm (strsIn.map (multiHashItem fast))
      ∧ outM.length = strsIn.length) := by
  have pS : outS.Perm (intsIn.map (singleHashItem fast slow)) := by
    have := stage_run_perm hS
    rwa [filterMap_decodeInt] at this
  have pM : outM.Perm (strsIn.map (multiHashItem fast)) := by
    have := stage_run_perm hM
    rwa [filterMap_decodeStr] at this
  refine ⟨⟨pS, ?_⟩, ⟨pM, ?_⟩⟩
  · rw [pS.length_eq, List.length_map]
  · rw [pM.length_eq, List.length_map]

/-- Witness for C8: concrete complete single-item runs of both stages. -/
theorem stages_emit_one_output_per_input_witness :
    StageRun decodeInt (singleHashItem id id) ([(5 : Int)].map V.int)
      [singleHashItem id id 5] ∧
    StageRun decodeStr (multiHashItem id) (["z"].map V.str)
      [multiHashItem id "z"] ∧
    (([singleHashItem id id 5].Perm ([(5 : Int)].map (singleHashItem id id))
        ∧ [singleHashItem id id 5].length = [(5 : Int)].length) ∧
      ([multiHashItem id "z"].Perm (["z"].map (multiHashItem id))
        ∧ [multiHashItem id "z"].length = (["z"] : List String).length)) := by
  have hS : StageRun decodeInt (singleHashItem id id) ([(5 : Int)].map V.int)
      [singleHashItem id id 5] :=
    stageRun_single decodeInt (singleHashItem id id) (V.int 5) 5 rfl
  have hM : StageRun decodeStr (multiHashItem id) (["z"].map V.str)
      [multiHashItem id "z"] :=
    stageRun_single decodeStr (multiHashItem id) (V.str "z") "z" rfl
  exact ⟨hS, hM,
    stages_emit_one_output_per_input id id [5] ["z"] _ _ hS hM⟩

/-- C9: `ExecutePipeline` with an empty stage list panics: `jobs[0]` is
evaluated before any length check, so the empty variadic call indexes out of
range; a non-empty stage list is the executor's precondition. -/
theorem executePipeline_empty_panics (α : Type) :
    executePipeline ([] : List α) = .error "index out of range" :=
  rfl

/-- The loop of `ExecutePipeline` makes one fresh channel per remaining
job. -/
lemma executeLoop_snd {α : Type} :
    ∀ (l : List α) (inChan nextId : Nat),
      (executeLoop inChan nextId l).2 = nextId + l.length := by
  intro l
  induction l with
  | nil => simp [executeLoop]
  | cons j rest ih =>
    intro inChan nextId
    simp only [executeLoop, List.length_cons]
    rw [ih]
    omega

/-- The loop of `ExecutePipeline` spawns one worker per remaining job. -/
lemma executeLoop_length {α : Type} :
    ∀ (l : List α) (inChan nextId : Nat),
      (executeLoop inChan nextId l).1.length = l.length := by
  intro l
  induction l with
  | nil => simp [executeLoop]
  | cons j rest ih =>
    intro inChan nextId
    simp only [executeLoop, List.length_cons]
    rw [ih]

/-- Shape of the `i`-th worker the loop spawns: it runs the `i`-th remaining
job, reads the previous worker's output channel, writes a fresh channel, and
defers both `close` and `wg.Done()`. -/
lemma executeLoop_get {α : Type} :
    ∀ (l : List α) (inChan nextId i : Nat)
      (hi : i < (executeLoop inChan nextId l).1.length) (hl : i < l.length),
      (executeLoop inChan nextId l).1.get ⟨i, hi⟩
        = ⟨l.get ⟨i, hl⟩, some (if i = 0 then inChan else nextId + i - 1),
            nextId + i, true, true⟩ := by
  intro l
  induction l with
  | nil => intro inChan nextId i hi hl; cases hl
  | cons j rest ih =>
    intro inChan nextId i hi hl
    match i with
    | 0 => simp [executeLoop]
    | i + 1 =>
      have hi' : i < (executeLoop nextId (nextId + 1) rest).1.length := by
        rw [executeLoop_length]
        exact Nat.lt_of_succ_lt_succ hl
      have hstep : (executeLoop inChan nextId (j :: rest)).1.get ⟨i + 1, hi⟩
          = (executeLoop nextId (nextId + 1) rest).1.get ⟨i, hi'⟩ := rfl
      rw [hstep, ih nextId (nextId + 1) i hi' (Nat.lt_of_succ_lt_succ hl)]
      have harith : (if i = 0 then nextId else nextId + 1 + i - 1)
          = nextId + (i + 1) - 1 := by
        split <;> omega
      simp only [harith]
      have : nextId + 1 + i = nextId + (i + 1) := by omega
      rw [this]
      rfl

/-- Counterexample to C7 as stated: `ExecutePipeline` takes no
`initialValues` and creates no synthetic input channel for the first stage —
already with two stages, the first spawned worker's input is `nil`
(`none`), not any channel `c`. -/
theorem executePipeline_first_input_is_nil :
    ¬ ∃ c : Nat, (executePipeline [(), ()]).toOption.bind
        (fun p => p.workers.head?.map Worker.input) = some (some c) := by
  rintro ⟨c, hc⟩
  simp [executePipeline, executeLoop, Except.toOption] at hc

/-- C7 (amended): `ExecutePipeline` on a non-empty stage list creates one
channel per stage — the channel between each adjacent pair plus a dangling
output channel for the last stage — and passes `nil` (no channel) as the
first stage's input; it launches one worker per stage, wiring worker `i+1`'s
input to worker `i`'s output, every worker deferring `close` of its output
channel and `wg.Done()`; the executor does one `wg.Add(1)` per worker and
ends in `wg.Wait()`, returning only after all workers signalled done. -/
theorem executePipeline_wiring {α : Type} (jobs : List α) (h : jobs ≠ []) :
    ∃ p : ExecPlan α, executePipeline jobs = .ok p ∧
      p.workers.length = jobs.length ∧
      p.channelsMade = jobs.length ∧
      (∀ i (hi : i < p.workers.length) (hj : i < jobs.length),
        p.workers.get ⟨i, hi⟩
          = ⟨jobs.get ⟨i, hj⟩, if i = 0 then none else some (i - 1), i,
              true, true⟩) ∧
      (∀ i (hi : i < p.workers.length) (hi' : i + 1 < p.workers.length),
        (p.workers.get ⟨i + 1, hi'⟩).input
          = some ((p.workers.get ⟨i, hi⟩).output)) ∧
      p.waitAdds = p.workers.length ∧
      p.blocksOnWait = true := by
  match jobs with
  | [] => exact absurd rfl h
  | firstJob :: rest =>
    have hget : ∀ i (hi : i < (⟨firstJob, none, 0, true, true⟩ ::
          (executeLoop 0 1 rest).1).length) (hj : i < (firstJob :: rest).length),
        (⟨firstJob, none, 0, true, true⟩ :: (executeLoop 0 1 rest).1).get
            ⟨i, hi⟩
          = ⟨(firstJob :: rest).get ⟨i, hj⟩,
              if i = 0 then none else some (i - 1), i, true, true⟩ := by
      intro i hi hj
      match i with
      | 0 => rfl
      | i + 1 =>
        have hi2 : i < (executeLoop 0 1 rest).1.length :=
          Nat.lt_of_succ_lt_succ hi
        have hj2 : i < rest.length := Nat.lt_of_succ_lt_succ hj
        have hstep : ((⟨firstJob, none, 0, true, true⟩ :: (executeLoop 0 1
            rest).1).get ⟨i + 1, hi⟩) = (executeLoop 0 1 rest).1.get ⟨i, hi2⟩ :=
          rfl
        rw [hstep, executeLoop_get rest 0 1 i hi2 hj2]
        have h1 : (if i = 0 then 0 else 1 + i - 1) = i := by
          split <;> omega
        simp only [h1]
        have h2 : 1 + i = i + 1 := by omega
        rw [h2]
        rfl
    refine ⟨⟨⟨firstJob, none, 0, true, true⟩ :: (executeLoop 0 1 rest).1,
      (executeLoop 0 1 rest).2, 1 + rest.length, true⟩, rfl, ?_, ?_, hget,
      ?_, ?_, rfl⟩
    · simp [executeLoop_length]
    · rw [executeLoop_snd]
      simp only [List.length_cons]
      omega
    · intro i hi hi'
      have hj : i < (firstJob :: rest).length := by
        simpa [executeLoop_length] using hi
      have hj' : i + 1 < (firstJob :: rest).length := by
        simpa [executeLoop_length] using hi'
      rw [hget i hi hj, hget (i + 1) hi' hj']
      simp
    · simp only [List.length_cons, executeLoop_length]
      omega

/-- Witness for the amended C7: the full wiring facts instantiated on a
concrete two-stage list. -/
theorem executePipeline_wiring_witness :
    ([0, 1] : List Nat) ≠ [] ∧
    (∃ p : ExecPlan Nat, executePipeline [0, 1] = .ok p ∧
      p.workers.length = ([0, 1] : List Nat).length ∧
      p.channelsMade = ([0, 1] : List Nat).length ∧
      (∀ i (hi : i < p.workers.length) (hj : i < ([0, 1] : List Nat).length),
        p.workers.get ⟨i, hi⟩
          = ⟨([0, 1] : List Nat).get ⟨i, hj⟩,
              if i = 0 then none else some (i - 1), i, true, true⟩) ∧
      (∀ i (hi : i < p.workers.length) (hi' : i + 1 < p.workers.length),
        (p.workers.get ⟨i + 1, hi'⟩).input
          = some ((p.workers.get ⟨i, hi⟩).output)) ∧
      p.waitAdds = p.workers.length ∧
      p.blocksOnWait = true) :=
  ⟨by decide, executePipeline_wiring [0, 1] (by decide)⟩
